import Mathlib

/-!  Verification of the gitingest ingestion engine (TypeScript sources under
`src/gitingest`).  JavaScript strings are modelled as lists of characters,
filesystem paths as lists of path components, and the stateful traversal as a
pure recursion that threads the `FileSystemStats` record explicitly.  -/

namespace Gitingest

/-- Characters of a JavaScript string, modelled as a list of Lean characters. -/
abbrev Str := List Char

/-- Convert a Lean string literal to the character-list representation. -/
def str (s : String) : Str := s.data

/-- The POSIX path separator used by the `path` module on Linux. -/
def sep : Str := str "/"

/-- Recursive worker for `matchPattern`: first argument is the remaining
pattern, second the remaining input. -/
def matchGo : Str → Str → Bool
  | [], t => t.isEmpty
  | p :: ps, t =>
    if p = '*' then (List.range (t.length + 1)).any (fun k => matchGo ps (t.drop k))
    else
      match t with
      | [] => false
      | c :: t2 => (p = '?' || p = c) && matchGo ps t2

/-- Model of `matchPattern(string, pattern)` from `utils/ingestion_utils`
(`textfile_checker_utils.ts`): the pattern is compiled to an anchored regular
expression with `.` escaped, `*` turned into `.*` (any run of characters,
separators included) and `?` turned into `.` (exactly one character); all other
pattern characters match literally.  (A pattern character that happens to be a
further regex metacharacter, such as `+`, would keep its regex meaning in the
JavaScript engine; the model is exact for patterns over the validated
alphabet without `+`.) -/
def matchPattern (s pat : Str) : Bool := matchGo pat s

/-- Strip the longest pairwise-equal prefix from two component lists. -/
def dropCommonPfx : List Str → List Str → List Str × List Str
  | a :: as, b :: bs => if a = b then dropCommonPfx as bs else (a :: as, b :: bs)
  | as, bs => (as, bs)

/-- Model of `path.relative(base, p)` on two absolute POSIX paths given as
component lists: strip the common prefix and climb with `..` for whatever is
left of `base`.  On absolute inputs `path.relative` never returns an absolute
path, so the `path.isAbsolute(relativePath)` test in the callers is modelled
as constantly false. -/
def pathRelative (base p : List Str) : List Str :=
  let bp := dropCommonPfx base p
  bp.1.map (fun _ => str "..") ++ bp.2

/-- The relative path as the string the JavaScript code manipulates. -/
def relString (base p : List Str) : Str := List.intercalate sep (pathRelative base p)

/-- Model of `shouldExclude(filePath, basePath, ignorePatterns)` from
`utils/ingestion_utils` (`textfile_checker_utils.ts` lines 141-162): compute
the path relative to the base; if that string starts with `..` (or were it
absolute) the path is treated as excluded; otherwise it is excluded exactly
when some non-empty pattern (`if (pattern && matchPattern(...))`) matches the
relative string.  No directory information reaches this function and the
relative path is never retried with a trailing separator. -/
def shouldExclude (filePath basePath : List Str) (ignorePatterns : List Str) : Bool :=
  let r := relString basePath filePath
  if (str "..").isPrefixOf r then true
  else ignorePatterns.any (fun pat => !pat.isEmpty && matchPattern r pat)

/-- Model of `shouldInclude(filePath, basePath, includePatterns)` from
`utils/ingestion_utils`: same relative-path computation, false when the path
escapes the base, otherwise true when any include pattern matches.  The
`isDirectory` flag in the source is the hard-coded constant `false`, so no
trailing separator is ever appended. -/
def shouldInclude (filePath basePath : List Str) (includePatterns : List Str) : Bool :=
  let r := relString basePath filePath
  if (str "..").isPrefixOf r then false
  else includePatterns.any (fun pat => matchPattern r pat)

/-- Model of `isValidPattern` from `utils/query_parser_utils.ts` (the validator the
query-construction path `parsePatterns` in `cli.ts` actually imports): the
regular expression test `^[a-zA-Z0-9\-_./+*]+$`, i.e. the pattern is non-empty
and every character is an ASCII letter or digit or one of `- _ . / + *`.
Note that `@` is not in this set. -/
def isValidPattern (p : Str) : Bool :=
  !p.isEmpty && p.all (fun c => c.isAlphanum || c ∈ ['-', '_', '.', '/', '+', '*'])

/-- Model of `isValidPattern` from `utils/query_parser.ts` (a second, unused variant):
every character is alphanumeric or one of `- _ . / + * @`; an empty pattern is
vacuously accepted.  This is also exactly the acceptance set the spec's
`validate(pattern)` sentence describes. -/
def isValidPatternQP (p : Str) : Bool :=
  p.all (fun c => c.isAlphanum || c ∈ ['-', '_', '.', '/', '+', '*', '@'])

/-- Drop JavaScript `trim` whitespace from both ends (modelled as Unicode
whitespace via `Char.isWhitespace`). -/
def trimWs (s : Str) : Str :=
  ((s.dropWhile Char.isWhitespace).reverse.dropWhile Char.isWhitespace).reverse

/-- Model of `normalizePattern` from `utils/query_parser_utils.ts`: trim whitespace and
strip leading and trailing `/` runs. -/
def normalizePattern (p : Str) : Str :=
  let t := trimWs p
  ((t.dropWhile (· = '/')).reverse.dropWhile (· = '/')).reverse

/-- Model of `parsePatterns` from the query-parsing half of `cli.ts` (lines 273-291):
skip empty entries, fail with `InvalidPatternError` on the first entry rejected
by `isValidPattern`, and collect the normalized patterns.  (The source stores
them in a `Set`; the model keeps the list, which matchers only test by
membership.) -/
def parsePatterns : List Str → Except Str (List Str)
  | [] => .ok []
  | p :: rest =>
    if p.isEmpty then parsePatterns rest
    else if !isValidPattern p then .error (str "Invalid pattern: " ++ p)
    else
      match parsePatterns rest with
      | .error e => .error e
      | .ok r => .ok (normalizePattern p :: r)

/-- The pattern-merging step of `parseQuery` in `cli.ts` (lines 131-151):
effective excludes are the defaults joined with the parsed caller excludes;
when a caller include set is supplied, each parsed include pattern is deleted
(literal string equality) from the effective exclude set, and the parsed
includes become the query's include set. -/
def mergeQueryPatterns (defaults : List Str) (ignore include_ : Option (List Str)) :
    Except Str (List Str × Option (List Str)) :=
  match (match ignore with
         | none => Except.ok defaults
         | some pats =>
           match parsePatterns pats with
           | .error e => .error e
           | .ok ps => .ok (defaults ++ ps.filter (fun p => p ∉ defaults))) with
  | .error e => .error e
  | .ok ign =>
    match include_ with
    | none => .ok (ign, none)
    | some pats =>
      match parsePatterns pats with
      | .error e => .error e
      | .ok inc => .ok (ign.filter (fun p => p ∉ inc), some inc)

/-! ## Filesystem data model

`FSTree`/`FSForest` model the on-disk directory tree handed to one ingestion:
the fixed directory-listing order is the forest's list order, and file contents
are carried as the oracle results the content decoder would produce.  Symbolic
links are not modelled (no claim mentions them); every entry is a regular file
or a directory, so the `realpath` of an entry is the entry's own path. -/

/-- Model of `FileSystemNodeType` from `types/filesystem_schema`. -/
inductive NType where
  | file
  | dir
deriving DecidableEq, Repr

mutual
/-- A parsed JSON document, the result of a successful `JSON.parse`. -/
inductive Json where
  | null : Json
  | jbool : Bool → Json
  | jnum : Int → Json
  | jstr : Str → Json
  | jarr : JArr → Json
  | jobj : JObj → Json
/-- A JSON array. -/
inductive JArr where
  | nil : JArr
  | cons : Json → JArr → JArr
/-- A JSON object as an ordered field list. -/
inductive JObj where
  | nil : JObj
  | cons : Str → Json → JObj → JObj
end

/-- Per-file oracle results of the content decoder of
`FileSystemNode.content`: whether `isTextFile` classifies the file as text,
the result of `JSON.parse` when the file is read as a notebook (`none` models
a `SyntaxError`), and the first successful encoding decode of the raw bytes
(`none` models every encoding failing). -/
structure RawFileData where
  isText : Bool
  notebookJson : Option Json
  decoded : Option (List Char)

/-- Placeholder data carried on directory nodes (never read for them). -/
def defaultData : RawFileData := ⟨true, none, some []⟩

mutual
/-- One directory entry: a regular file (with its byte size and content
oracle) or a subdirectory with its listing. -/
inductive FSTree where
  | file : Str → Nat → RawFileData → FSTree
  | dir : Str → FSForest → FSTree
/-- A directory listing in filesystem-native order. -/
inductive FSForest where
  | nil : FSForest
  | cons : FSTree → FSForest → FSForest
end

/-- The name of an entry (`entry.name`). -/
def FSTree.name : FSTree → Str
  | .file nm _ _ => nm
  | .dir nm _ => nm

mutual
/-- Model of `FileSystemNode` from `types/filesystem_schema`: name, type, relative path
(`path_str`, as components), absolute path (`path`, as components), cumulative
`size`, `file_count`, `dir_count`, `depth`, children, and the content oracle
of the underlying file. -/
inductive Node where
  | mk : Str → NType → List Str → List Str → Nat → Nat → Nat → Nat → NodeList →
      RawFileData → Node
/-- The `children` array of a node. -/
inductive NodeList where
  | nil : NodeList
  | cons : Node → NodeList → NodeList
end

def Node.name : Node → Str
  | .mk nm _ _ _ _ _ _ _ _ _ => nm

def Node.ntype : Node → NType
  | .mk _ t _ _ _ _ _ _ _ _ => t

def Node.path_str : Node → List Str
  | .mk _ _ ps _ _ _ _ _ _ _ => ps

def Node.pathAbs : Node → List Str
  | .mk _ _ _ p _ _ _ _ _ _ => p

def Node.size : Node → Nat
  | .mk _ _ _ _ sz _ _ _ _ _ => sz

def Node.file_count : Node → Nat
  | .mk _ _ _ _ _ fc _ _ _ _ => fc

def Node.dir_count : Node → Nat
  | .mk _ _ _ _ _ _ dc _ _ _ => dc

def Node.depth : Node → Nat
  | .mk _ _ _ _ _ _ _ d _ _ => d

def Node.children : Node → NodeList
  | .mk _ _ _ _ _ _ _ _ cs _ => cs

def Node.data : Node → RawFileData
  | .mk _ _ _ _ _ _ _ _ _ fd => fd

/-- Convert a plain list of nodes to the `children` representation. -/
def toNodeList : List Node → NodeList
  | [] => .nil
  | n :: ns => .cons n (toNodeList ns)

/-- View the `children` representation as a plain list. -/
def ofNodeList : NodeList → List Node
  | .nil => []
  | .cons n ns => n :: ofNodeList ns

/-- Model of `FileSystemStats` from `types/filesystem_schema`: visited canonical paths
and the running totals. -/
structure Stats where
  visited : List (List Str)
  total_files : Nat
  total_size : Nat
deriving DecidableEq

/-- Model of `IngestionQuery` from `types/ingestion_schema`, restricted to the fields
the ingestion and the formatter read.  Optional string fields use `none` for
JavaScript `undefined`. -/
structure Query where
  user_name : Option Str
  repo_name : Option Str
  local_path : List Str
  slug : Str
  subpath : Str
  qtype : Str
  branch : Option Str
  commit : Option Str
  max_file_size : Nat
  ignore_patterns : List Str
  include_patterns : Option (List Str)
deriving DecidableEq

/-! ## Configuration constants (`config.ts`) -/

def MAX_FILE_SIZE : Nat := 10 * 1024 * 1024

def MAX_DIRECTORY_DEPTH : Nat := 20

def MAX_FILES : Nat := 10000

def MAX_TOTAL_SIZE_BYTES : Nat := 500 * 1024 * 1024

/-- Model of `limitExceeded(stats, depth)` from `ingestion.ts` lines 284-301. -/
def limitExceeded (st : Stats) (depth : Nat) : Bool :=
  if depth > MAX_DIRECTORY_DEPTH then true
  else if st.total_files ≥ MAX_FILES then true
  else if st.total_size ≥ MAX_TOTAL_SIZE_BYTES then true
  else false

/-! ## Child sorting (`FileSystemNode.sortChildren`) -/

/-- Case-insensitive comparison key of `sortChildren`: priority group on the
lowercased name (0 = file named exactly `readme.md`, 1 = other non-hidden
file, 2 = hidden file, 3 = non-hidden directory, 4 = hidden directory)
together with the lowercased name for the tiebreak. -/
def sortKey (n : Node) : Nat × Str :=
  let nm := n.name.map Char.toLower
  match n.ntype with
  | .file =>
    if nm = str "readme.md" then (0, nm)
    else if nm.take 1 = ['.'] then (2, nm) else (1, nm)
  | .dir => if nm.take 1 = ['.'] then (4, nm) else (3, nm)

/-- Codepoint-wise string comparison, the model of
`nameA.localeCompare(nameB) ≤ 0` on the lowercased names. -/
def strLeB : Str → Str → Bool
  | [], _ => true
  | _ :: _, [] => false
  | a :: as, b :: bs => if a.toNat = b.toNat then strLeB as bs else decide (a.toNat < b.toNat)

/-- The comparator of `sortChildren` as a boolean "less or equal". -/
def nodeLe (a b : Node) : Bool :=
  let ka := sortKey a
  let kb := sortKey b
  if ka.1 = kb.1 then strLeB ka.2 kb.2 else decide (ka.1 < kb.1)

/-- Model of `sortChildren` from `types/filesystem_schema` lines 176-202: the stable
JavaScript `Array.prototype.sort` under the group/name comparator, modelled by
the stable insertion sort on the comparator's "less or equal". -/
def sortChildren (cs : List Node) : List Node :=
  List.insertionSort (fun a b => nodeLe a b = true) cs

/-! ## Traversal engine (`ingestion.ts`) -/

/-- The aggregates `processNode` accumulates on the directory node it is
filling in: appended children and the `size`/`file_count`/`dir_count` added to
the parent. -/
structure DirResult where
  children : List Node
  size : Nat
  file_count : Nat
  dir_count : Nat

/-- The empty contribution (an entry that was skipped). -/
def emptyDR : DirResult := ⟨[], 0, 0, 0⟩

/-- The two pattern guards of `processNode` (`ingestion.ts` lines 183-189):
an entry survives when `shouldExclude` rejects it on no pattern, and then,
only when `query.include_patterns` is present (a JavaScript truthiness test on
the `Set` object, which an empty set also passes), when `shouldInclude`
accepts it. -/
def passesFilters (targetPath : List Str) (q : Query) : Bool :=
  !shouldExclude targetPath q.local_path q.ignore_patterns &&
  (match q.include_patterns with
   | none => true
   | some inc => shouldInclude targetPath q.local_path inc)

/-- Model of `processFile` from `ingestion.ts` lines 237-272: pre-check the total-size
budget (skip with no state change when adding the file would exceed it), then
increment the running counters, then post-check the file-count budget (keep
the incremented counters but append nothing when the counter went past
`MAX_FILES`), and otherwise append a FILE child carrying `size`, a
`file_count` of one and the parent's depth plus one. -/
def processFile (entryPath : List Str) (nm : Str) (sz : Nat) (fd : RawFileData)
    (parentDepth : Nat) (q : Query) (st : Stats) : DirResult × Stats :=
  if st.total_size + sz > MAX_TOTAL_SIZE_BYTES then (emptyDR, st)
  else
    let st2 : Stats :=
      { st with total_files := st.total_files + 1, total_size := st.total_size + sz }
    if st2.total_files > MAX_FILES then (emptyDR, st2)
    else
      let child : Node := .mk nm .file (pathRelative q.local_path entryPath) entryPath
        sz 1 0 (parentDepth + 1) .nil fd
      (⟨[child], sz, 1, 0⟩, st2)

mutual
/-- One iteration of the entry loop of `processNode` (`ingestion.ts` lines
159-221): resolve the entry path, skip already-visited paths, record the path
as visited, apply the pattern guards, and then process the entry as a file or
recurse into it as a directory.  A directory child is appended unconditionally
after the recursion, folding `size`, `file_count` and `1 + dir_count` into the
parent. -/
def processEntry (parentDepth : Nat) (dirPath : List Str) (e : FSTree) (q : Query)
    (st : Stats) : DirResult × Stats :=
  let entryPath := dirPath ++ [e.name]
  if st.visited.contains entryPath then (emptyDR, st)
  else
    let st1 : Stats := { st with visited := entryPath :: st.visited }
    if passesFilters entryPath q then
      match e with
      | .file nm sz fd => processFile entryPath nm sz fd parentDepth q st1
      | .dir nm sub =>
        let r :=
          if limitExceeded st1 (parentDepth + 1) then (emptyDR, st1)
          else
            let r0 := processForest (parentDepth + 1) entryPath sub q st1
            ({ r0.1 with children := sortChildren r0.1.children }, r0.2)
        let child : Node := .mk nm .dir (pathRelative q.local_path entryPath) entryPath
          r.1.size r.1.file_count r.1.dir_count (parentDepth + 1)
          (toNodeList r.1.children) defaultData
        (⟨[child], r.1.size, r.1.file_count, 1 + r.1.dir_count⟩, r.2)
    else (emptyDR, st1)

/-- The entry loop of `processNode` over a whole listing, threading the
traversal state left to right and summing the contributions in listing
order. -/
def processForest (parentDepth : Nat) (dirPath : List Str) (fs : FSForest) (q : Query)
    (st : Stats) : DirResult × Stats :=
  match fs with
  | .nil => (emptyDR, st)
  | .cons e rest =>
    let r1 := processEntry parentDepth dirPath e q st
    let r2 := processForest parentDepth dirPath rest q r1.2
    (⟨r1.1.children ++ r2.1.children, r1.1.size + r2.1.size,
      r1.1.file_count + r2.1.file_count, r1.1.dir_count + r2.1.dir_count⟩, r2.2)
end

/-- Model of `processNode` from `ingestion.ts` lines 148-224 for the directory whose
own depth is `depth`, listing `entries` and absolute path `dirPath`: return
immediately when a budget is already exhausted, otherwise run the entry loop
and sort the resulting children once. -/
def processNode (depth : Nat) (dirPath : List Str) (entries : FSForest) (q : Query)
    (st : Stats) : DirResult × Stats :=
  if limitExceeded st depth then (emptyDR, st)
  else
    let r0 := processForest depth dirPath entries q st
    ({ r0.1 with children := sortChildren r0.1.children }, r0.2)

/-- Model of `query.subpath.split('/').filter(Boolean)` from `ingestQuery`. -/
def splitOnChar (c : Char) : Str → List Str
  | [] => [[]]
  | a :: rest =>
    match splitOnChar c rest with
    | [] => [[a]]
    | h :: t => if a = c then [] :: h :: t else (a :: h) :: t

/-- The non-empty components of the query's subpath. -/
def subSplit (sub : Str) : List Str := (splitOnChar '/' sub).filter (fun c => !c.isEmpty)

/-- The fully traversed node `ingestQuery` (`ingestion.ts` lines 34-83) hands
to `formatNode`: for a single file a FILE node with the file's size and a
`file_count` of one, for a directory the root DIRECTORY node at depth 0 filled
in by `processNode` from fresh traversal statistics.  The model tree is the
entry at `targetPath = join(local_path, subpath)`, so its name plays the part
of `basename(targetPath)`. -/
def rootNodeOf (tree : FSTree) (q : Query) : Node :=
  let targetPath := q.local_path ++ subSplit q.subpath
  match tree with
  | .file nm sz fd =>
    Node.mk nm .file (pathRelative q.local_path targetPath) targetPath sz 1 0 0 .nil fd
  | .dir nm entries =>
    let r := processNode 0 targetPath entries q ⟨[], 0, 0⟩
    Node.mk nm .dir (pathRelative q.local_path targetPath) targetPath
      r.1.size r.1.file_count r.1.dir_count 0 (toNodeList r.1.children) defaultData

/-! ## Notebook transcoder (`utils/notebook_utils.ts`) -/

/-- Look a key up in a JSON object's field list. -/
def JObj.find : JObj → Str → Option Json
  | .nil, _ => none
  | .cons k v rest, key => if k = key then some v else rest.find key

/-- JavaScript property access `v.key`: a present field, or `undefined`
(`none`) on a missing field or a non-object value.  (On `null`/`undefined`
receivers JavaScript throws instead; the callers below only reach this after
their own truthiness or shape checks, or fail anyway on the resulting
`undefined`.) -/
def getField : Json → Str → Option Json
  | .jobj fs, key => fs.find key
  | _, _ => none

/-- JavaScript truthiness of a possibly-undefined JSON value. -/
def truthy : Option Json → Bool
  | none => false
  | some .null => false
  | some (.jbool b) => b
  | some (.jnum n) => decide (n ≠ 0)
  | some (.jstr s) => !s.isEmpty
  | some (.jarr _) => true
  | some (.jobj _) => true

def JArr.toList : JArr → List Json
  | .nil => []
  | .cons x xs => x :: xs.toList

mutual
/-- JavaScript `String(v)` on a JSON value. -/
def jsToString : Json → Str
  | .null => str "null"
  | .jbool true => str "true"
  | .jbool false => str "false"
  | .jnum n => (toString n).data
  | .jstr s => s
  | .jarr xs => jsArrToString xs
  | .jobj _ => str "[object Object]"
/-- Model of `Array.prototype.toString`: elements joined with commas. -/
def jsArrToString : JArr → Str
  | .nil => []
  | .cons x .nil => jsToString x
  | .cons x rest => jsToString x ++ str "," ++ jsArrToString rest
end

/-- Model of `${v}` where `v` may be `undefined`. -/
def optJsStr : Option Json → Str
  | some v => jsToString v
  | none => str "undefined"

/-- The failures `processNotebook` can raise: `InvalidNotebookError` for a
`JSON.parse` `SyntaxError`, plain `Error`s for unknown cell or output types,
and the `TypeError`s JavaScript raises when the cell containers are missing
or not iterable. -/
inductive NbError where
  | invalidJson : Str → NbError
  | unknownCellType : Str → NbError
  | unknownOutputType : Str → NbError
  | typeError : NbError
deriving DecidableEq

/-- How the caught exception stringifies inside a template literal
(`Name: message`). -/
def renderNbError : NbError → Str
  | .invalidJson p => str "InvalidNotebookError: Invalid JSON in notebook: " ++ p
  | .unknownCellType t => str "Error: Unknown cell type: " ++ t
  | .unknownOutputType t => str "Error: Unknown output type: " ++ t
  | .typeError => str "TypeError"

/-- Model of `extractOutput` from `utils/notebook_utils.ts` lines 135-152. -/
def extractOutput (o : Json) : Except NbError (List Str) :=
  match getField o (str "output_type") with
  | some (.jstr t) =>
    if t = str "stream" then
      .ok (match getField o (str "text") with
           | some (.jarr xs) => xs.toList.map jsToString
           | v => [optJsStr v])
    else if t = str "execute_result" || t = str "display_data" then
      match getField o (str "data") with
      | some d =>
        .ok (match getField d (str "text/plain") with
             | some (.jarr xs) => xs.toList.map jsToString
             | v => [optJsStr v])
      | none => .error .typeError
    else if t = str "error" then
      .ok [str "Error: " ++ optJsStr (getField o (str "ename")) ++ str ": " ++
           optJsStr (getField o (str "evalue"))]
    else .error (.unknownOutputType t)
  | v => .error (.unknownOutputType (optJsStr v))

/-- Fold `extractOutput` over an output list, stopping at the first failure. -/
def extractOutputs : List Json → Except NbError (List Str)
  | [] => .ok []
  | o :: os =>
    match extractOutput o with
    | .error e => .error e
    | .ok ls =>
      match extractOutputs os with
      | .error e => .error e
      | .ok rest => .ok (ls ++ rest)

/-- Model of `processCell` from `utils/notebook_utils.ts` lines 78-126: reject cell
types other than the markdown/code/raw strings, join array sources, skip
cells whose joined source is empty, wrap markdown and raw cells in a
triple-quoted block, and append code-cell outputs as a `# Output:` comment
block when output inclusion is on and the outputs array is non-empty. -/
def processCell (cell : Json) (includeOutput : Bool) : Except NbError (Option Str) :=
  match getField cell (str "cell_type") with
  | some (.jstr t) =>
    if !(t = str "markdown" || t = str "code" || t = str "raw") then
      .error (.unknownCellType t)
    else
      let cellStr : Str :=
        match getField cell (str "source") with
        | some (.jarr xs) => (xs.toList.map jsToString).flatten
        | some v => jsToString v
        | none => []
      if cellStr.isEmpty then .ok none
      else if t = str "markdown" || t = str "raw" then
        .ok (some (str "\"\"\"\n" ++ cellStr ++ str "\n\"\"\""))
      else
        match getField cell (str "outputs") with
        | some (.jarr os) =>
          if includeOutput && !os.toList.isEmpty then
            match extractOutputs os.toList with
            | .error e => .error e
            | .ok lines =>
              let formatted := lines.map (fun l => if l.getLast? = some '\n' then l else l ++ ['\n'])
              .ok (some (cellStr ++ str "\n# Output:\n#   " ++
                         List.intercalate (str "\n#   ") formatted))
          else .ok (some cellStr)
        | _ => .ok (some cellStr)
  | v => .error (.unknownCellType (optJsStr v))

/-- Fold `processCell` over the cell list, keeping the non-empty results. -/
def processCells : List Json → Bool → Except NbError (List Str)
  | [], _ => .ok []
  | c :: cs, io =>
    match processCell c io with
    | .error e => .error e
    | .ok none => processCells cs io
    | .ok (some s) =>
      match processCells cs io with
      | .error e => .error e
      | .ok rest => .ok (s :: rest)

/-- Model of `processNotebook` from `utils/notebook_utils.ts` lines 26-68, applied to
the `JSON.parse` result of the file at `path` (`none` models the
`SyntaxError` of malformed JSON, which the function converts to an
`InvalidNotebookError`): flatten deprecated worksheets into one cell
sequence, transcode the cells, and join them under the header with blank
lines.  (A worksheet whose `cells` field is `undefined` is modelled as
contributing nothing; in JavaScript the stray `undefined` element would make
`processCell` throw a `TypeError`, another non-`SyntaxError` failure.) -/
def processNotebook (path : Str) (parsed : Option Json) (includeOutput : Bool) :
    Except NbError Str :=
  match parsed with
  | none => .error (.invalidJson path)
  | some nb =>
    let ws := getField nb (str "worksheets")
    let cellsE : Except NbError (List Json) :=
      if truthy ws then
        match ws with
        | some (.jarr wss) =>
          .ok (wss.toList.flatMap (fun w =>
            match getField w (str "cells") with
            | some (.jarr cs) => cs.toList
            | some v => [v]
            | none => []))
        | _ => .error .typeError
      else
        match getField nb (str "cells") with
        | some (.jarr cs) => .ok cs.toList
        | _ => .error .typeError
    match cellsE with
    | .error e => .error e
    | .ok cells =>
      match processCells cells includeOutput with
      | .error e => .error e
      | .ok strs =>
        .ok (List.intercalate (str "\n\n")
              (str "# Jupyter notebook converted to Python script." :: strs) ++ str "\n")

/-! ## Content decoder (`FileSystemNode.content`) -/

/-- Model of `path.extname` on a basename: the suffix from the last dot, empty for a
dotless name or a name whose only dot is the leading one. -/
def extname (s : Str) : Str :=
  match splitOnChar '.' s with
  | [] => []
  | [_] => []
  | parts => if parts.length = 2 && (parts.headD []).isEmpty then [] else '.' :: parts.getLastD []

/-- The FILE branch of the `content` getter of `FileSystemNode`
(`types/filesystem_schema` lines 216-248): a fixed placeholder for a
non-text file; for an `.ipynb` file the transcoded notebook with every
transcoding failure caught and replaced by an error string; otherwise the
first successful encoding decode or the fixed undecodable placeholder. -/
def fileContent (nm : Str) (pathAbs : List Str) (fd : RawFileData) : Str :=
  if !fd.isText then str "[Non-text file]"
  else if extname nm = str ".ipynb" then
    match processNotebook (List.intercalate sep pathAbs) fd.notebookJson true with
    | .ok s => s
    | .error e => str "Error processing notebook: " ++ renderNbError e
  else
    match fd.decoded with
    | some c => c
    | none => str "Error: Unable to decode file with available encodings"

/-- The `content` getter on a node (the DIRECTORY branch throws in the
source and is never reached by the formatter; it is modelled as empty). -/
def nodeContent (n : Node) : Str :=
  match n.ntype with
  | .dir => []
  | .file => fileContent n.name n.pathAbs n.data

/-! ## Digest formatter (`output_formatters.ts`) -/

/-- The three-part digest `(summary, tree, content)`. -/
structure Digest where
  summary : Str
  tree : Str
  content : Str
deriving DecidableEq

def natRepr (n : Nat) : Str := (Nat.repr n).data

def chunks3 : Str → List Str
  | [] => []
  | [a] => [[a]]
  | [a, b] => [[a, b]]
  | a :: b :: c :: more => [a, b, c] :: chunks3 more

/-- Model of `Number.prototype.toLocaleString` under the default grouping: decimal
digits with a comma every three. -/
def groupNat (n : Nat) : Str :=
  List.intercalate (str ",") (((chunks3 (natRepr n).reverse).map List.reverse).reverse)

def optTruthy : Option Str → Bool
  | some s => !s.isEmpty
  | none => false

/-- Model of `${v}` on a possibly-undefined string field. -/
def optOrUndefined : Option Str → Str
  | some s => s
  | none => str "undefined"

/-- Model of `createSummaryPrefix` from `output_formatters.ts` lines 48-69. -/
def createSummaryPrefix (q : Query) (single_file : Bool) : Str :=
  let parts : List Str :=
    if optTruthy q.user_name then
      [str "Repository: " ++ optOrUndefined q.user_name ++ str "/" ++ optOrUndefined q.repo_name]
    else
      [str "Directory: " ++ q.slug]
  let parts := parts ++
    (if optTruthy q.commit then [str "Commit: " ++ optOrUndefined q.commit]
     else if optTruthy q.branch &&
         !((q.branch.getD []).map Char.toLower = str "main" ||
           (q.branch.getD []).map Char.toLower = str "master") then
       [str "Branch: " ++ optOrUndefined q.branch]
     else [])
  let parts := parts ++
    (if q.subpath ≠ str "/" && !single_file then [str "Subpath: " ++ q.subpath] else [])
  List.intercalate (str "\n") parts ++ str "\n"

mutual
/-- Model of `createTreeStructure` from `output_formatters.ts` lines 106-140: one
`├── `/`└── ` line per node (directories shown with a trailing `/`, a
nameless root shown as the query's slug) and the recursion over the already
sorted children with the `│   `/four-space continuation. -/
def createTree (slug : Str) (n : Node) (pfx : Str) (isLast : Bool) : Str :=
  match n with
  | .mk nm0 t _ _ _ _ _ _ cs _ =>
    let nm := if nm0.isEmpty then slug else nm0
    let cur := if isLast then str "└── " else str "├── "
    let disp := if t = .dir then nm ++ str "/" else nm
    let here := pfx ++ cur ++ disp ++ str "\n"
    match t, cs with
    | .dir, .cons c rest =>
      here ++ createTreeKids slug (.cons c rest) (pfx ++ (if isLast then str "    " else str "│   "))
    | _, _ => here
/-- The `forEach` over children, the last child flagged. -/
def createTreeKids (slug : Str) (cs : NodeList) (pfx : Str) : Str :=
  match cs with
  | .nil => []
  | .cons n .nil => createTree slug n pfx true
  | .cons n rest => createTree slug n pfx false ++ createTreeKids slug rest pfx
end

mutual
/-- Model of `gatherFileContents` from `output_formatters.ts` lines 80-92: a FILE node
contributes a `### path` heading and a fenced block labelled with the last
dot-component of its name; a DIRECTORY node contributes its children's
contributions joined with newlines. -/
def gatherOne : Node → Str
  | .mk nm t ps pa _ _ _ _ cs fd =>
    match t with
    | .file =>
      str "### " ++ List.intercalate sep ps ++ str "\n```" ++ (splitOnChar '.' nm).getLastD [] ++
        str "\n" ++ fileContent nm pa fd ++ str "\n```\n"
    | .dir => List.intercalate (str "\n") (gatherKids cs)
/-- The children's contributions, in child order. -/
def gatherKids : NodeList → List Str
  | .nil => []
  | .cons n rest => gatherOne n :: gatherKids rest
end

/-- Model of `(n / d).toFixed(1)` for the token display, computed exactly with
round-half-up (which agrees with the IEEE double computation at the
magnitudes the formatter feeds it, representation edge cases aside). -/
def fixed1 (n d : Nat) : Str :=
  let t := (n * 10 + d / 2) / d
  natRepr (t / 10) ++ str "." ++ natRepr (t % 10)

/-- Model of `formatTokenCount` from `output_formatters.ts` lines 154-172: the
character count divided by four and rounded up, rendered plain below 1000,
with a one-decimal `k` suffix from 1000 and a one-decimal `M` suffix from
1000000. -/
def formatTokenCount (text : Str) : Str :=
  let total := (text.length + 3) / 4
  if total ≥ 1000000 then fixed1 total 1000000 ++ str "M"
  else if total ≥ 1000 then fixed1 total 1000 ++ str "k"
  else natRepr total

/-- Model of `formatNode` from `output_formatters.ts` lines 17-37: the summary prefix
plus `Files analyzed:` for a directory or `File:`/`Lines:` for a single file,
the rendered tree under its `Directory structure:` header, the gathered
contents, and the estimated-token line appended to the summary. -/
def formatNode (n : Node) (q : Query) : Digest :=
  let single := n.ntype = .file
  let s0 := createSummaryPrefix q single
  let s1 := s0 ++
    (match n.ntype with
     | .dir => str "Files analyzed: " ++ natRepr n.file_count ++ str "\n"
     | .file => str "File: " ++ n.name ++ str "\n" ++ str "Lines: " ++
         groupNat (splitOnChar '\n' (nodeContent n)).length ++ str "\n")
  let tree := str "Directory structure:\n" ++ createTree q.slug n [] true
  let content := gatherOne n
  let te := formatTokenCount (tree ++ content)
  let summary := if !te.isEmpty then s1 ++ str "\nEstimated tokens: " ++ te else s1
  ⟨summary, tree, content⟩

/-- Model of `ingestQuery` from `ingestion.ts` lines 34-83 on the entry found at the
resolved target path: a directory requested as a `blob` is the fatal `is not
a file` failure; a single file whose content is empty (JavaScript falsy) is
the fatal `has no content` failure; otherwise the traversed root node is
formatted into the digest.  (`applyGitingestFile` and the missing-path check
concern the on-disk configuration file and are outside the model.) -/
def ingestDigest (tree : FSTree) (q : Query) : Except Str Digest :=
  let node := rootNodeOf tree q
  match tree with
  | .file _ _ _ =>
    if (nodeContent node).isEmpty then .error (str "File " ++ node.name ++ str " has no content")
    else .ok (formatNode node q)
  | .dir _ _ =>
    if q.qtype = str "blob" then
      .error (str "Path is not a file")
    else .ok (formatNode node q)

/-! ## Induction principles for the mutual tree types -/

theorem fsInd (Pt : FSTree → Prop) (Pf : FSForest → Prop)
    (h1 : ∀ nm sz fd, Pt (.file nm sz fd))
    (h2 : ∀ nm fs, Pf fs → Pt (.dir nm fs))
    (h3 : Pf .nil)
    (h4 : ∀ e fs, Pt e → Pf fs → Pf (.cons e fs)) :
    (∀ t, Pt t) ∧ (∀ fs, Pf fs) :=
  ⟨fun t => @FSTree.rec Pt Pf h1 h2 h3 h4 t, fun fs => @FSForest.rec Pt Pf h1 h2 h3 h4 fs⟩

theorem nodeInd (Pn : Node → Prop) (Pl : NodeList → Prop)
    (h1 : ∀ nm t ps pa sz fc dc d cs fd, Pl cs → Pn (.mk nm t ps pa sz fc dc d cs fd))
    (h2 : Pl .nil)
    (h3 : ∀ n cs, Pn n → Pl cs → Pl (.cons n cs)) :
    (∀ n, Pn n) ∧ (∀ cs, Pl cs) :=
  ⟨fun n => @Node.rec Pn Pl h1 h2 h3 n, fun cs => @NodeList.rec Pn Pl h1 h2 h3 cs⟩

/-! ## Retained-descendant aggregates and the node invariant (claim C1) -/

mutual
/-- The total size of the retained FILE descendants of a subtree (for a FILE
node the file itself). -/
def fileC : Node → Nat
  | .mk _ t _ _ sz _ _ _ cs _ =>
    match t with
    | .file => sz
    | .dir => fileCL cs
def fileCL : NodeList → Nat
  | .nil => 0
  | .cons n rest => fileC n + fileCL rest
end

mutual
/-- The number of retained FILE descendants of a subtree (for a FILE node the
file itself). -/
def fcntC : Node → Nat
  | .mk _ t _ _ _ _ _ _ cs _ =>
    match t with
    | .file => 1
    | .dir => fcntL cs
def fcntL : NodeList → Nat
  | .nil => 0
  | .cons n rest => fcntC n + fcntL rest
end

mutual
/-- The number of retained DIRECTORY nodes of a subtree, the subtree's own
root included when it is a directory. -/
def dcntC : Node → Nat
  | .mk _ t _ _ _ _ _ _ cs _ =>
    match t with
    | .file => 0
    | .dir => 1 + dcntL cs
def dcntL : NodeList → Nat
  | .nil => 0
  | .cons n rest => dcntC n + dcntL rest
end

def NodeList.isNil : NodeList → Bool
  | .nil => true
  | .cons _ _ => false

mutual
/-- The invariant of claim C1 on a whole subtree: every DIRECTORY node's
`size`, `file_count` and `dir_count` are the sum of sizes, the count of the
retained FILE descendants and the count of the retained DIRECTORY descendants
below it, and every FILE node has no children and a zero `dir_count`. -/
def wfN : Node → Bool
  | .mk _ t _ _ sz fc dc _ cs _ =>
    (match t with
     | .dir => sz == fileCL cs && fc == fcntL cs && dc == dcntL cs
     | .file => cs.isNil && dc == 0)
    && wfL cs
def wfL : NodeList → Bool
  | .nil => true
  | .cons n rest => wfN n && wfL rest
end

theorem fileCL_toNodeList (cs : List Node) :
    fileCL (toNodeList cs) = (cs.map fileC).sum := by
  induction cs with
  | nil => simp [toNodeList, fileCL]
  | cons n rest ih => simp [toNodeList, fileCL, ih]

theorem fcntL_toNodeList (cs : List Node) :
    fcntL (toNodeList cs) = (cs.map fcntC).sum := by
  induction cs with
  | nil => simp [toNodeList, fcntL]
  | cons n rest ih => simp [toNodeList, fcntL, ih]

theorem dcntL_toNodeList (cs : List Node) :
    dcntL (toNodeList cs) = (cs.map dcntC).sum := by
  induction cs with
  | nil => simp [toNodeList, dcntL]
  | cons n rest ih => simp [toNodeList, dcntL, ih]

theorem wfL_toNodeList (cs : List Node) :
    wfL (toNodeList cs) = cs.all wfN := by
  induction cs with
  | nil => simp [toNodeList, wfL]
  | cons n rest ih => simp [toNodeList, wfL, ih]

/-- The traversal's per-directory contract: the accumulated children all
satisfy the invariant and the accumulated aggregates are exactly their
retained-descendant sums. -/
def GoodDR (r : DirResult) : Prop :=
  (∀ c ∈ r.children, wfN c = true) ∧
  r.size = (r.children.map fileC).sum ∧
  r.file_count = (r.children.map fcntC).sum ∧
  r.dir_count = (r.children.map dcntC).sum

theorem goodDR_empty : GoodDR emptyDR := by
  refine ⟨?_, ?_, ?_, ?_⟩ <;> simp [emptyDR]

theorem sortChildren_perm (cs : List Node) : (sortChildren cs).Perm cs :=
  List.perm_insertionSort _ cs

theorem goodDR_sort (r : DirResult) (h : GoodDR r) :
    GoodDR { r with children := sortChildren r.children } := by
  obtain ⟨hwf, hsz, hfc, hdc⟩ := h
  have hp := sortChildren_perm r.children
  refine ⟨?_, ?_, ?_, ?_⟩
  · intro c hc
    exact hwf c (hp.mem_iff.mp hc)
  · rw [hsz]
    exact ((hp.map fileC).sum_eq).symm
  · rw [hfc]
    exact ((hp.map fcntC).sum_eq).symm
  · rw [hdc]
    exact ((hp.map dcntC).sum_eq).symm

theorem goodDR_append (r1 r2 : DirResult) (h1 : GoodDR r1) (h2 : GoodDR r2) :
    GoodDR ⟨r1.children ++ r2.children, r1.size + r2.size,
      r1.file_count + r2.file_count, r1.dir_count + r2.dir_count⟩ := by
  obtain ⟨hwf1, hsz1, hfc1, hdc1⟩ := h1
  obtain ⟨hwf2, hsz2, hfc2, hdc2⟩ := h2
  refine ⟨?_, ?_, ?_, ?_⟩
  · intro c hc
    rcases List.mem_append.mp hc with h | h
    · exact hwf1 c h
    · exact hwf2 c h
  · simp [hsz1, hsz2]
  · simp [hfc1, hfc2]
  · simp [hdc1, hdc2]

theorem goodDR_processFile (entryPath : List Str) (nm : Str) (sz : Nat) (fd : RawFileData)
    (parentDepth : Nat) (q : Query) (st : Stats) :
    GoodDR (processFile entryPath nm sz fd parentDepth q st).1 := by
  unfold processFile
  by_cases h1 : st.total_size + sz > MAX_TOTAL_SIZE_BYTES
  · simp [h1, goodDR_empty]
  · by_cases h2 : st.total_files + 1 > MAX_FILES
    · simp [h1, h2, goodDR_empty]
    · refine ⟨?_, ?_, ?_, ?_⟩ <;>
        simp [h1, h2, wfN, wfL, NodeList.isNil, fileC, fcntC, dcntC]

theorem goodDR_dirChild (nm : Str) (ps pa : List Str) (d : Nat) (r : DirResult)
    (h : GoodDR r) :
    GoodDR ⟨[Node.mk nm .dir ps pa r.size r.file_count r.dir_count d
      (toNodeList (sortChildren r.children)) defaultData],
      r.size, r.file_count, 1 + r.dir_count⟩ := by
  obtain ⟨hwf, hsz, hfc, hdc⟩ := h
  have hperm := sortChildren_perm r.children
  have hs : (List.map fileC (sortChildren r.children)).sum = (List.map fileC r.children).sum :=
    (hperm.map fileC).sum_eq
  have hf2 : (List.map fcntC (sortChildren r.children)).sum = (List.map fcntC r.children).sum :=
    (hperm.map fcntC).sum_eq
  have hd2 : (List.map dcntC (sortChildren r.children)).sum = (List.map dcntC r.children).sum :=
    (hperm.map dcntC).sum_eq
  refine ⟨?_, ?_, ?_, ?_⟩
  · intro c hc
    simp only [List.mem_singleton] at hc
    subst hc
    simp only [wfN, wfL, Bool.and_eq_true, beq_iff_eq, fileCL_toNodeList, fcntL_toNodeList,
      dcntL_toNodeList, wfL_toNodeList, List.all_eq_true]
    refine ⟨⟨⟨?_, ?_⟩, ?_⟩, ?_⟩
    · rw [hs]
      exact hsz
    · rw [hf2]
      exact hfc
    · rw [hd2]
      exact hdc
    · intro c hc
      exact hwf c (hperm.mem_iff.mp hc)
  · simp only [List.map_cons, List.map_nil, List.sum_cons, List.sum_nil, Nat.add_zero,
      fileC, fileCL_toNodeList]
    rw [hs]
    exact hsz
  · simp only [List.map_cons, List.map_nil, List.sum_cons, List.sum_nil, Nat.add_zero,
      fcntC, fcntL_toNodeList]
    rw [hf2]
    exact hfc
  · simp only [List.map_cons, List.map_nil, List.sum_cons, List.sum_nil, Nat.add_zero,
      dcntC, dcntL_toNodeList]
    rw [hd2]
    omega

theorem goodDR_traversal :
    (∀ e, ∀ parentDepth dirPath q st, GoodDR (processEntry parentDepth dirPath e q st).1) ∧
    (∀ fs, ∀ parentDepth dirPath q st, GoodDR (processForest parentDepth dirPath fs q st).1) := by
  refine fsInd
    (fun e => ∀ parentDepth dirPath q st, GoodDR (processEntry parentDepth dirPath e q st).1)
    (fun fs => ∀ parentDepth dirPath q st, GoodDR (processForest parentDepth dirPath fs q st).1)
    ?_ ?_ ?_ ?_
  · intro nm sz fd parentDepth dirPath q st
    unfold processEntry
    simp only [FSTree.name]
    by_cases hv : st.visited.contains (dirPath ++ [nm]) = true
    · rw [if_pos hv]
      exact goodDR_empty
    · rw [if_neg hv]
      by_cases hp : passesFilters (dirPath ++ [nm]) q = true
      · rw [if_pos hp]
        exact goodDR_processFile _ _ _ _ _ _ _
      · rw [if_neg hp]
        exact goodDR_empty
  · intro nm fs ih parentDepth dirPath q st
    unfold processEntry
    simp only [FSTree.name]
    by_cases hv : st.visited.contains (dirPath ++ [nm]) = true
    · rw [if_pos hv]
      exact goodDR_empty
    · rw [if_neg hv]
      by_cases hp : passesFilters (dirPath ++ [nm]) q = true
      · rw [if_pos hp]
        by_cases hl : limitExceeded
            { st with visited := (dirPath ++ [nm]) :: st.visited } (parentDepth + 1) = true
        · rw [if_pos hl]
          exact goodDR_dirChild _ _ _ _ emptyDR goodDR_empty
        · rw [if_neg hl]
          exact goodDR_dirChild _ _ _ _ _ (ih (parentDepth + 1) (dirPath ++ [nm]) q
            { st with visited := (dirPath ++ [nm]) :: st.visited })
      · rw [if_neg hp]
        exact goodDR_empty
  · intro parentDepth dirPath q st
    simp [processForest, goodDR_empty]
  · intro e fs ihe ihf parentDepth dirPath q st
    simp only [processForest]
    exact goodDR_append _ _ (ihe _ _ _ _) (ihf _ _ _ _)

theorem goodDR_processNode (depth : Nat) (dirPath : List Str) (entries : FSForest)
    (q : Query) (st : Stats) : GoodDR (processNode depth dirPath entries q st).1 := by
  unfold processNode
  by_cases hl : limitExceeded st depth
  · simp [hl, goodDR_empty]
  · simp only [hl, Bool.false_eq_true, if_false]
    exact goodDR_sort _ (goodDR_traversal.2 entries depth dirPath q st)

/-- C1: for every completed traversal, every DIRECTORY node of the resulting
tree has `size` equal to the sum of the sizes of its retained FILE
descendants, `file_count` equal to the number of its retained FILE
descendants and `dir_count` equal to the number of its retained DIRECTORY
descendants (itself excluded), and every FILE node has no children and a
`dir_count` of zero: the recursive invariant `wfN` holds of the root node
`ingestQuery` builds, whatever the directory tree and the query. -/
theorem claim_C1 (tree : FSTree) (q : Query) : wfN (rootNodeOf tree q) = true := by
  cases tree with
  | file nm sz fd =>
    simp [rootNodeOf, wfN, wfL, NodeList.isNil]
  | dir nm entries =>
    obtain ⟨hwf, hsz, hfc, hdc⟩ :=
      goodDR_processNode 0 (q.local_path ++ subSplit q.subpath) entries q ⟨[], 0, 0⟩
    simp only [rootNodeOf, wfN, wfL, Bool.and_eq_true, beq_iff_eq, fileCL_toNodeList,
      fcntL_toNodeList, dcntL_toNodeList, wfL_toNodeList, List.all_eq_true]
    exact ⟨⟨⟨hsz, hfc⟩, hdc⟩, hwf⟩

/-! ## Sortedness of the children lists (claim C8) -/

theorem strLeB_total (s t : Str) : strLeB s t = true ∨ strLeB t s = true := by
  induction s generalizing t with
  | nil => left; simp [strLeB]
  | cons a as ih =>
    cases t with
    | nil => right; simp [strLeB]
    | cons b bs =>
      by_cases h : a.toNat = b.toNat
      · have h2 : b.toNat = a.toNat := h.symm
        rcases ih bs with hh | hh
        · left; simp [strLeB, h, hh]
        · right; simp [strLeB, h2, hh]
      · by_cases hlt : a.toNat < b.toNat
        · left; simp [strLeB, h, hlt]
        · right
          have h3 : b.toNat < a.toNat := by omega
          have hne : ¬b.toNat = a.toNat := by omega
          simp [strLeB, hne, h3]

theorem strLeB_trans (s t u : Str) (h1 : strLeB s t = true) (h2 : strLeB t u = true) :
    strLeB s u = true := by
  induction s generalizing t u with
  | nil => simp [strLeB]
  | cons a as ih =>
    cases t with
    | nil => simp [strLeB] at h1
    | cons b bs =>
      cases u with
      | nil => simp [strLeB] at h2
      | cons c cs =>
        simp only [strLeB] at h1 h2 ⊢
        by_cases hab : a.toNat = b.toNat
        · rw [if_pos hab] at h1
          by_cases hbc : b.toNat = c.toNat
          · rw [if_pos hbc] at h2
            rw [if_pos (hab.trans hbc)]
            exact ih bs cs h1 h2
          · rw [if_neg hbc] at h2
            have hbc2 : b.toNat < c.toNat := of_decide_eq_true h2
            have hac : ¬a.toNat = c.toNat := by omega
            rw [if_neg hac]
            exact decide_eq_true (by omega)
        · rw [if_neg hab] at h1
          have hab2 : a.toNat < b.toNat := of_decide_eq_true h1
          by_cases hbc : b.toNat = c.toNat
          · have hac : ¬a.toNat = c.toNat := by omega
            rw [if_neg hac]
            exact decide_eq_true (by omega)
          · rw [if_neg hbc] at h2
            have hbc2 : b.toNat < c.toNat := of_decide_eq_true h2
            have hac : ¬a.toNat = c.toNat := by omega
            rw [if_neg hac]
            exact decide_eq_true (by omega)

theorem nodeLe_total (a b : Node) : nodeLe a b = true ∨ nodeLe b a = true := by
  unfold nodeLe
  by_cases h : (sortKey a).1 = (sortKey b).1
  · rcases strLeB_total (sortKey a).2 (sortKey b).2 with hh | hh
    · left; simp [h, hh]
    · right; simp [h.symm, hh]
  · by_cases hlt : (sortKey a).1 < (sortKey b).1
    · left; simp [h, hlt]
    · right
      have h3 : (sortKey b).1 < (sortKey a).1 := by omega
      have hne : ¬(sortKey b).1 = (sortKey a).1 := by omega
      simp [hne, h3]

theorem nodeLe_trans (a b c : Node) (h1 : nodeLe a b = true) (h2 : nodeLe b c = true) :
    nodeLe a c = true := by
  unfold nodeLe at h1 h2 ⊢
  by_cases hab : (sortKey a).1 = (sortKey b).1
  · rw [if_pos hab] at h1
    by_cases hbc : (sortKey b).1 = (sortKey c).1
    · rw [if_pos hbc] at h2
      rw [if_pos (hab.trans hbc)]
      exact strLeB_trans _ _ _ h1 h2
    · rw [if_neg hbc] at h2
      have hbc2 : (sortKey b).1 < (sortKey c).1 := of_decide_eq_true h2
      have hac : ¬(sortKey a).1 = (sortKey c).1 := by omega
      rw [if_neg hac]
      exact decide_eq_true (by omega)
  · rw [if_neg hab] at h1
    have hab2 : (sortKey a).1 < (sortKey b).1 := of_decide_eq_true h1
    by_cases hbc : (sortKey b).1 = (sortKey c).1
    · have hac : ¬(sortKey a).1 = (sortKey c).1 := by omega
      rw [if_neg hac]
      exact decide_eq_true (by omega)
    · rw [if_neg hbc] at h2
      have hbc2 : (sortKey b).1 < (sortKey c).1 := of_decide_eq_true h2
      have hac : ¬(sortKey a).1 = (sortKey c).1 := by omega
      rw [if_neg hac]
      exact decide_eq_true (by omega)

instance : IsTotal Node (fun a b => nodeLe a b = true) := ⟨nodeLe_total⟩

instance : IsTrans Node (fun a b => nodeLe a b = true) := ⟨nodeLe_trans⟩

theorem sortChildren_sorted (l : List Node) :
    List.Sorted (fun a b => nodeLe a b = true) (sortChildren l) :=
  List.sorted_insertionSort _ l

/-- Adjacent children are in comparator order. -/
def chainLe : NodeList → Bool
  | .nil => true
  | .cons _ .nil => true
  | .cons a (.cons b rest) => nodeLe a b && chainLe (.cons b rest)

mutual
/-- Every directory of the subtree has its children in comparator order. -/
def allSortedN : Node → Bool
  | .mk _ _ _ _ _ _ _ _ cs _ => chainLe cs && allSortedL cs
def allSortedL : NodeList → Bool
  | .nil => true
  | .cons n rest => allSortedN n && allSortedL rest
end

theorem chainLe_toNodeList (l : List Node)
    (h : List.Sorted (fun a b => nodeLe a b = true) l) : chainLe (toNodeList l) = true := by
  induction l with
  | nil => simp [toNodeList, chainLe]
  | cons a rest ih =>
    cases rest with
    | nil => simp [toNodeList, chainLe]
    | cons b r2 =>
      have hab : nodeLe a b = true := (List.pairwise_cons.mp h).1 b (List.mem_cons_self b r2)
      have htl := ih (List.pairwise_cons.mp h).2
      simp only [toNodeList, chainLe, Bool.and_eq_true]
      exact ⟨hab, by simpa [toNodeList] using htl⟩

/-- The per-directory sortedness contract of the traversal results. -/
def SortedDR (r : DirResult) : Prop := ∀ c ∈ r.children, allSortedN c = true

theorem allSortedL_toNodeList (cs : List Node) :
    allSortedL (toNodeList cs) = cs.all allSortedN := by
  induction cs with
  | nil => simp [toNodeList, allSortedL]
  | cons n rest ih => simp [toNodeList, allSortedL, ih]

theorem sortedDR_empty : SortedDR emptyDR := by
  intro c hc
  simp [emptyDR] at hc

theorem sortedDR_dirChild (nm : Str) (ps pa : List Str) (d : Nat) (r : DirResult)
    (h : SortedDR r) :
    SortedDR ⟨[Node.mk nm .dir ps pa r.size r.file_count r.dir_count d
      (toNodeList (sortChildren r.children)) defaultData],
      r.size, r.file_count, 1 + r.dir_count⟩ := by
  intro c hc
  simp only [List.mem_singleton] at hc
  subst hc
  simp only [allSortedN, Bool.and_eq_true]
  constructor
  · exact chainLe_toNodeList _ (sortChildren_sorted r.children)
  · rw [allSortedL_toNodeList]
    simp only [List.all_eq_true]
    intro c hc
    exact h c ((sortChildren_perm r.children).mem_iff.mp hc)

theorem sortedDR_traversal :
    (∀ e, ∀ parentDepth dirPath q st, SortedDR (processEntry parentDepth dirPath e q st).1) ∧
    (∀ fs, ∀ parentDepth dirPath q st, SortedDR (processForest parentDepth dirPath fs q st).1) := by
  refine fsInd
    (fun e => ∀ parentDepth dirPath q st, SortedDR (processEntry parentDepth dirPath e q st).1)
    (fun fs => ∀ parentDepth dirPath q st, SortedDR (processForest parentDepth dirPath fs q st).1)
    ?_ ?_ ?_ ?_
  · intro nm sz fd parentDepth dirPath q st
    unfold processEntry
    simp only [FSTree.name]
    by_cases hv : st.visited.contains (dirPath ++ [nm]) = true
    · rw [if_pos hv]
      exact sortedDR_empty
    · rw [if_neg hv]
      by_cases hp : passesFilters (dirPath ++ [nm]) q = true
      · rw [if_pos hp]
        unfold processFile
        by_cases h1 : st.total_size + sz > MAX_TOTAL_SIZE_BYTES
        · rw [if_pos h1]
          exact sortedDR_empty
        · rw [if_neg h1]
          by_cases h2 : st.total_files + 1 > MAX_FILES
          · rw [if_pos h2]
            exact sortedDR_empty
          · rw [if_neg h2]
            intro c hc
            simp only [List.mem_singleton] at hc
            subst hc
            simp [allSortedN, allSortedL, chainLe]
      · rw [if_neg hp]
        exact sortedDR_empty
  · intro nm fs ih parentDepth dirPath q st
    unfold processEntry
    simp only [FSTree.name]
    by_cases hv : st.visited.contains (dirPath ++ [nm]) = true
    · rw [if_pos hv]
      exact sortedDR_empty
    · rw [if_neg hv]
      by_cases hp : passesFilters (dirPath ++ [nm]) q = true
      · rw [if_pos hp]
        by_cases hl : limitExceeded
            { st with visited := (dirPath ++ [nm]) :: st.visited } (parentDepth + 1) = true
        · rw [if_pos hl]
          exact sortedDR_dirChild _ _ _ _ emptyDR sortedDR_empty
        · rw [if_neg hl]
          exact sortedDR_dirChild _ _ _ _ _ (ih (parentDepth + 1) (dirPath ++ [nm]) q
            { st with visited := (dirPath ++ [nm]) :: st.visited })
      · rw [if_neg hp]
        exact sortedDR_empty
  · intro parentDepth dirPath q st
    exact sortedDR_empty
  · intro e fs ihe ihf parentDepth dirPath q st
    simp only [processForest]
    intro c hc
    rcases List.mem_append.mp hc with h | h
    · exact ihe parentDepth dirPath q st c h
    · exact ihf parentDepth dirPath q (processEntry parentDepth dirPath e q st).2 c h

/-- The example children of claim C8, in a scrambled pre-sort order. -/
def exChildren : List Node :=
  [Node.mk (str "src") .dir [] [] 0 0 0 1 .nil defaultData,
   Node.mk (str ".env") .file [] [] 1 1 0 1 .nil defaultData,
   Node.mk (str "README.md") .file [] [] 1 1 0 1 .nil defaultData,
   Node.mk (str ".git") .dir [] [] 0 0 0 1 .nil defaultData,
   Node.mk (str "b.txt") .file [] [] 1 1 0 1 .nil defaultData]

/-- C8: every directory node of a completed ingestion has its children in the
order of the `sortChildren` comparator — priority group on the lowercased
name (0 = `readme.md` file, 1 = other non-hidden file, 2 = hidden file,
3 = non-hidden directory, 4 = hidden directory) with the name tiebreak within
a group — and on the claim's example children `README.md`, `b.txt`, `.env`
(files) and `src`, `.git` (directories) the sort yields exactly the order
`README.md`, `b.txt`, `.env`, `src`, `.git`. -/
theorem claim_C8 :
    (∀ (tree : FSTree) (q : Query), allSortedN (rootNodeOf tree q) = true) ∧
    (sortChildren exChildren).map Node.name =
      [str "README.md", str "b.txt", str ".env", str "src", str ".git"] := by
  constructor
  · intro tree q
    cases tree with
    | file nm sz fd =>
      simp [rootNodeOf, allSortedN, allSortedL, chainLe]
    | dir nm entries =>
      have h := sortedDR_traversal.2 entries 0 (q.local_path ++ subSplit q.subpath) q ⟨[], 0, 0⟩
      simp only [rootNodeOf, allSortedN, Bool.and_eq_true]
      unfold processNode
      by_cases hl : limitExceeded (⟨[], 0, 0⟩ : Stats) 0 = true
      · rw [if_pos hl]
        simp [emptyDR, toNodeList, chainLe, allSortedL]
      · rw [if_neg hl]
        constructor
        · exact chainLe_toNodeList _ (sortChildren_sorted _)
        · rw [allSortedL_toNodeList]
          simp only [List.all_eq_true]
          intro c hc
          exact h c ((sortChildren_perm _).mem_iff.mp hc)
  · decide

/-! ## The traversal and formatter never read `max_file_size` (claim C10) -/

theorem processTraversal_max :
    (∀ e, ∀ parentDepth dirPath q m st,
      processEntry parentDepth dirPath e { q with max_file_size := m } st =
        processEntry parentDepth dirPath e q st) ∧
    (∀ fs, ∀ parentDepth dirPath q m st,
      processForest parentDepth dirPath fs { q with max_file_size := m } st =
        processForest parentDepth dirPath fs q st) := by
  refine fsInd
    (fun e => ∀ parentDepth dirPath q m st,
      processEntry parentDepth dirPath e { q with max_file_size := m } st =
        processEntry parentDepth dirPath e q st)
    (fun fs => ∀ parentDepth dirPath q m st,
      processForest parentDepth dirPath fs { q with max_file_size := m } st =
        processForest parentDepth dirPath fs q st)
    ?_ ?_ ?_ ?_
  · intro nm sz fd parentDepth dirPath q m st
    rfl
  · intro nm fs ih parentDepth dirPath q m st
    unfold processEntry
    simp only [FSTree.name]
    rw [ih (parentDepth + 1) (dirPath ++ [nm]) q m
      { st with visited := (dirPath ++ [nm]) :: st.visited }]
    rfl
  · intro parentDepth dirPath q m st
    rfl
  · intro e fs ihe ihf parentDepth dirPath q m st
    simp only [processForest]
    rw [ihe parentDepth dirPath q m st,
      ihf parentDepth dirPath q m (processEntry parentDepth dirPath e q st).2]

theorem processNode_max (depth : Nat) (dirPath : List Str) (entries : FSForest)
    (q : Query) (m : Nat) (st : Stats) :
    processNode depth dirPath entries { q with max_file_size := m } st =
      processNode depth dirPath entries q st := by
  unfold processNode
  rw [processTraversal_max.2]

theorem rootNodeOf_max (tree : FSTree) (q : Query) (m : Nat) :
    rootNodeOf tree { q with max_file_size := m } = rootNodeOf tree q := by
  cases tree with
  | file nm sz fd => rfl
  | dir nm entries =>
    dsimp only [rootNodeOf]
    rw [processNode_max]

/-- C10: for any two queries identical except for `max_file_size` and any
directory tree, the ingestion returns an identical digest: the traversal's
per-file admission reads only the global `MAX_TOTAL_SIZE_BYTES` and
`MAX_FILES` constants and the formatter never reads the field either. -/
theorem claim_C10 (tree : FSTree) (q : Query) (m1 m2 : Nat) :
    ingestDigest tree { q with max_file_size := m1 } =
      ingestDigest tree { q with max_file_size := m2 } := by
  have h : ∀ m, ingestDigest tree { q with max_file_size := m } = ingestDigest tree q := by
    intro m
    unfold ingestDigest
    rw [rootNodeOf_max]
    rfl
  rw [h m1, h m2]

/-! ## Determinism (claim C2) -/

/-- C2: two runs of the ingestion over the same directory tree (same listing
order, same file contents) with an identical query return byte-identical
(summary, tree, content) triples: the whole pipeline is a pure function of
the tree and the query, with no other input. -/
theorem claim_C2 (tree : FSTree) (q : Query) (r1 r2 : Except Str Digest)
    (h1 : r1 = ingestDigest tree q) (h2 : r2 = ingestDigest tree q) : r1 = r2 := by
  rw [h1, h2]

/-- A directory tree and query used to instantiate the claims. -/
def treeW : FSTree :=
  .dir (str "repo") (.cons (.file (str "a.md") 4 ⟨true, none, some (str "# hi")⟩) .nil)

def qW : Query :=
  ⟨none, none, [str "repo"], str "repo", str "/", str "tree", none, none,
    MAX_FILE_SIZE, [], none⟩

theorem claim_C2_witness : ingestDigest treeW qW = ingestDigest treeW qW :=
  claim_C2 treeW qW (ingestDigest treeW qW) (ingestDigest treeW qW) rfl rfl

/-! ## Size-budget admission order (claim C4) -/

theorem contains_cons_false {α : Type} [BEq α] [LawfulBEq α] (l : List α) (a b : α)
    (h1 : l.contains b = false) (h2 : b ≠ a) : (a :: l).contains b = false := by
  simp only [List.contains, List.elem_eq_mem, decide_eq_false_iff_not, List.mem_cons, not_or]
    at h1 ⊢
  exact ⟨h2, h1⟩

theorem append_last_ne {α : Type} (dirPath : List α) (na nb : α) (h : nb ≠ na) :
    dirPath ++ [nb] ≠ dirPath ++ [na] := by
  intro hh
  exact h (by simpa using List.append_cancel_left hh)

/-- C4: with remaining total-size budget `R = MAX_TOTAL_SIZE_BYTES -
total_size` and a directory listing file `A` (whose size exceeds `R`) before
file `B` (whose size fits), the traversal skips `A` without touching the
running counters and retains `B`: admission is a per-file pre-check in
listing order, not size-optimal packing. -/
theorem claim_C4 (st : Stats) (depth : Nat) (dirPath : List Str) (q : Query)
    (na nb : Str) (szA szB : Nat) (fdA fdB : RawFileData)
    (hA : st.total_size + szA > MAX_TOTAL_SIZE_BYTES)
    (hB : st.total_size + szB ≤ MAX_TOTAL_SIZE_BYTES)
    (hfiles : st.total_files < MAX_FILES)
    (hsize : st.total_size < MAX_TOTAL_SIZE_BYTES)
    (hdepth : depth ≤ MAX_DIRECTORY_DEPTH)
    (hvA : st.visited.contains (dirPath ++ [na]) = false)
    (hvB : st.visited.contains (dirPath ++ [nb]) = false)
    (hne : nb ≠ na)
    (hpA : passesFilters (dirPath ++ [na]) q = true)
    (hpB : passesFilters (dirPath ++ [nb]) q = true) :
    (processNode depth dirPath (.cons (.file na szA fdA) (.cons (.file nb szB fdB) .nil))
        q st).1.children =
      [Node.mk nb .file (pathRelative q.local_path (dirPath ++ [nb])) (dirPath ++ [nb])
        szB 1 0 (depth + 1) .nil fdB] ∧
    (processNode depth dirPath (.cons (.file na szA fdA) (.cons (.file nb szB fdB) .nil))
        q st).1.size = szB ∧
    (processNode depth dirPath (.cons (.file na szA fdA) (.cons (.file nb szB fdB) .nil))
        q st).1.file_count = 1 ∧
    (processNode depth dirPath (.cons (.file na szA fdA) (.cons (.file nb szB fdB) .nil))
        q st).2.total_files = st.total_files + 1 ∧
    (processNode depth dirPath (.cons (.file na szA fdA) (.cons (.file nb szB fdB) .nil))
        q st).2.total_size = st.total_size + szB := by
  have stepA : processEntry depth dirPath (.file na szA fdA) q st =
      (emptyDR, { st with visited := (dirPath ++ [na]) :: st.visited }) := by
    unfold processEntry
    simp only [FSTree.name]
    rw [if_neg (by rw [hvA]; exact Bool.false_ne_true :
      ¬st.visited.contains (dirPath ++ [na]) = true)]
    rw [if_pos hpA]
    unfold processFile
    rw [if_pos hA]
  have hvB2 : (((dirPath ++ [na]) :: st.visited).contains (dirPath ++ [nb])) = false :=
    contains_cons_false _ _ _ hvB (append_last_ne _ _ _ hne)
  have stepB : processEntry depth dirPath (.file nb szB fdB) q
      { st with visited := (dirPath ++ [na]) :: st.visited } =
      (⟨[Node.mk nb .file (pathRelative q.local_path (dirPath ++ [nb])) (dirPath ++ [nb])
          szB 1 0 (depth + 1) .nil fdB], szB, 1, 0⟩,
        ⟨(dirPath ++ [nb]) :: (dirPath ++ [na]) :: st.visited,
          st.total_files + 1, st.total_size + szB⟩) := by
    unfold processEntry
    simp only [FSTree.name]
    rw [if_neg (by rw [hvB2]; exact Bool.false_ne_true :
      ¬(Stats.visited { st with visited := (dirPath ++ [na]) :: st.visited }).contains
        (dirPath ++ [nb]) = true)]
    rw [if_pos hpB]
    unfold processFile
    rw [if_neg (by
      show ¬(st.total_size + szB > MAX_TOTAL_SIZE_BYTES)
      omega)]
    rw [if_neg (by
      show ¬(st.total_files + 1 > MAX_FILES)
      omega)]
  have hle : ¬limitExceeded st depth = true := by
    unfold limitExceeded
    rw [if_neg (by omega : ¬depth > MAX_DIRECTORY_DEPTH),
      if_neg (by omega : ¬st.total_files ≥ MAX_FILES),
      if_neg (by omega : ¬st.total_size ≥ MAX_TOTAL_SIZE_BYTES)]
    simp
  have key : processNode depth dirPath
      (.cons (.file na szA fdA) (.cons (.file nb szB fdB) .nil)) q st =
      (⟨[Node.mk nb .file (pathRelative q.local_path (dirPath ++ [nb])) (dirPath ++ [nb])
          szB 1 0 (depth + 1) .nil fdB], szB, 1, 0⟩,
        ⟨(dirPath ++ [nb]) :: (dirPath ++ [na]) :: st.visited,
          st.total_files + 1, st.total_size + szB⟩) := by
    unfold processNode
    rw [if_neg hle]
    simp only [processForest, stepA, stepB]
    simp [emptyDR, sortChildren, List.insertionSort, List.orderedInsert]
  rw [key]
  exact ⟨rfl, rfl, rfl, rfl, rfl⟩

def stC4 : Stats := ⟨[], 0, 522190848⟩

def forestC4 : FSForest :=
  .cons (.file (str "a") 3145728 defaultData) (.cons (.file (str "b") 1048576 defaultData) .nil)

theorem claim_C4_witness :
    (processNode 0 [str "repo"] forestC4 qW stC4).1.file_count = 1 ∧
    (processNode 0 [str "repo"] forestC4 qW stC4).2.total_files = 1 ∧
    (processNode 0 [str "repo"] forestC4 qW stC4).2.total_size = 522190848 + 1048576 := by
  have h := claim_C4 stC4 0 [str "repo"] qW (str "a") (str "b") 3145728 1048576
    defaultData defaultData (by decide) (by decide) (by decide) (by decide) (by decide)
    (by decide) (by decide) (by decide) (by decide) (by decide)
  exact ⟨h.2.2.1, h.2.2.2.1, h.2.2.2.2⟩

/-! ## File-count budget (claim C3) -/

/-- A flat listing of equally-sized files. -/
def filesForest (names : List Str) (s : Nat) (fd : RawFileData) : FSForest :=
  match names with
  | [] => .nil
  | nm :: rest => .cons (.file nm s fd) (filesForest rest s fd)

theorem processFileEntry_eq (depth : Nat) (dirPath : List Str) (nm : Str) (sz : Nat)
    (fd : RawFileData) (q : Query) (st : Stats)
    (hv : st.visited.contains (dirPath ++ [nm]) = false)
    (hp : passesFilters (dirPath ++ [nm]) q = true) :
    processEntry depth dirPath (.file nm sz fd) q st =
      processFile (dirPath ++ [nm]) nm sz fd depth q
        { st with visited := (dirPath ++ [nm]) :: st.visited } := by
  unfold processEntry
  simp only [FSTree.name]
  rw [if_neg (by rw [hv]; exact Bool.false_ne_true :
    ¬st.visited.contains (dirPath ++ [nm]) = true)]
  rw [if_pos hp]

/-- The flat-directory loop: starting with `k` files counted and `k * s`
bytes accumulated, a listing of fresh, unfiltered, equally-sized files
admits exactly `min names.length (MAX_FILES - k)` of them while the running
counters take every file of the listing. -/
theorem flatLoop (names : List Str) (s : Nat) (fd : RawFileData) (depth : Nat)
    (dirPath : List Str) (q : Query) (k : Nat) (vis : List (List Str))
    (hbud : (k + names.length) * s ≤ MAX_TOTAL_SIZE_BYTES)
    (hnodup : names.Nodup)
    (hfresh : ∀ nm ∈ names, vis.contains (dirPath ++ [nm]) = false)
    (hpass : ∀ nm ∈ names, passesFilters (dirPath ++ [nm]) q = true) :
    (processForest depth dirPath (filesForest names s fd) q ⟨vis, k, k * s⟩).1.file_count =
      min names.length (MAX_FILES - k) ∧
    (processForest depth dirPath (filesForest names s fd) q ⟨vis, k, k * s⟩).2.total_files =
      k + names.length ∧
    (processForest depth dirPath (filesForest names s fd) q ⟨vis, k, k * s⟩).2.total_size =
      (k + names.length) * s := by
  induction names generalizing k vis with
  | nil =>
    refine ⟨?_, ?_, ?_⟩ <;> simp [filesForest, processForest, emptyDR]
  | cons nm rest ih =>
    have hv := hfresh nm (List.mem_cons_self nm rest)
    have hp := hpass nm (List.mem_cons_self nm rest)
    have hlen : (nm :: rest).length = rest.length + 1 := by simp
    have hk1 : (k + 1) * s ≤ MAX_TOTAL_SIZE_BYTES := by
      refine le_trans (Nat.mul_le_mul_right s ?_) hbud
      simp only [hlen]
      omega
    have hpre : ¬(k * s + s > MAX_TOTAL_SIZE_BYTES) := by
      have h2 : k * s + s ≤ MAX_TOTAL_SIZE_BYTES := by
        rw [← Nat.succ_mul]
        exact hk1
      omega
    have hnm_rest : nm ∉ rest := (List.nodup_cons.mp hnodup).1
    have hfresh2 : ∀ nm2 ∈ rest,
        ((dirPath ++ [nm]) :: vis).contains (dirPath ++ [nm2]) = false := by
      intro nm2 hm
      refine contains_cons_false _ _ _ (hfresh nm2 (List.mem_cons_of_mem nm hm)) ?_
      exact append_last_ne _ _ _ (fun hh => hnm_rest (hh ▸ hm))
    have hbud2 : (k + 1 + rest.length) * s ≤ MAX_TOTAL_SIZE_BYTES := by
      have he : k + 1 + rest.length = k + (nm :: rest).length := by
        simp only [hlen]
        omega
      rw [he]
      exact hbud
    have hstEq : Stats.mk ((dirPath ++ [nm]) :: vis) (k + 1) (k * s + s) =
        Stats.mk ((dirPath ++ [nm]) :: vis) (k + 1) ((k + 1) * s) := by
      rw [Nat.succ_mul]
    simp only [filesForest, processForest]
    rw [processFileEntry_eq depth dirPath nm s fd q ⟨vis, k, k * s⟩ hv hp]
    unfold processFile
    rw [if_neg hpre]
    by_cases hmax : k + 1 > MAX_FILES
    · rw [if_pos hmax]
      rw [hstEq]
      obtain ⟨ih1, ih2, ih3⟩ := ih (k + 1) ((dirPath ++ [nm]) :: vis) hbud2
        (List.nodup_cons.mp hnodup).2 hfresh2
        (fun nm2 hm => hpass nm2 (List.mem_cons_of_mem nm hm))
      refine ⟨?_, ?_, ?_⟩
      · simp only [emptyDR, ih1, hlen]
        omega
      · simp only [ih2, hlen]
        omega
      · rw [ih3]
        congr 1
        simp only [hlen]
        omega
    · rw [if_neg hmax]
      rw [hstEq]
      obtain ⟨ih1, ih2, ih3⟩ := ih (k + 1) ((dirPath ++ [nm]) :: vis) hbud2
        (List.nodup_cons.mp hnodup).2 hfresh2
        (fun nm2 hm => hpass nm2 (List.mem_cons_of_mem nm hm))
      refine ⟨?_, ?_, ?_⟩
      · simp only [ih1, hlen]
        omega
      · simp only [ih2, hlen]
        omega
      · rw [ih3]
        congr 1
        simp only [hlen]
        omega

mutual
/-- The number of FILE nodes anywhere in a subtree. -/
def cntFN : Node → Nat
  | .mk _ t _ _ _ _ _ _ cs _ => (match t with | .file => 1 | .dir => 0) + cntFL cs
def cntFL : NodeList → Nat
  | .nil => 0
  | .cons n rest => cntFN n + cntFL rest
end

theorem limitExceeded_true_of_files (st : Stats) (depth : Nat)
    (h : st.total_files ≥ MAX_FILES) : limitExceeded st depth = true := by
  unfold limitExceeded
  by_cases hd : depth > MAX_DIRECTORY_DEPTH
  · rw [if_pos hd]
  · rw [if_neg hd, if_pos h]

/-- Once the running file counter is at or past `MAX_FILES`, the remainder of
the traversal appends no FILE node anywhere (directory children may still be
appended, but they come back empty), and the counter never drops back. -/
theorem noFilesAfterMax :
    (∀ e, ∀ parentDepth dirPath q st, st.total_files ≥ MAX_FILES →
      ((processEntry parentDepth dirPath e q st).1.children.map cntFN).sum = 0 ∧
      (processEntry parentDepth dirPath e q st).2.total_files ≥ MAX_FILES) ∧
    (∀ fs, ∀ parentDepth dirPath q st, st.total_files ≥ MAX_FILES →
      ((processForest parentDepth dirPath fs q st).1.children.map cntFN).sum = 0 ∧
      (processForest parentDepth dirPath fs q st).2.total_files ≥ MAX_FILES) := by
  refine fsInd
    (fun e => ∀ parentDepth dirPath q st, st.total_files ≥ MAX_FILES →
      ((processEntry parentDepth dirPath e q st).1.children.map cntFN).sum = 0 ∧
      (processEntry parentDepth dirPath e q st).2.total_files ≥ MAX_FILES)
    (fun fs => ∀ parentDepth dirPath q st, st.total_files ≥ MAX_FILES →
      ((processForest parentDepth dirPath fs q st).1.children.map cntFN).sum = 0 ∧
      (processForest parentDepth dirPath fs q st).2.total_files ≥ MAX_FILES)
    ?_ ?_ ?_ ?_
  · intro nm sz fd parentDepth dirPath q st hst
    unfold processEntry
    simp only [FSTree.name]
    by_cases hv : st.visited.contains (dirPath ++ [nm]) = true
    · rw [if_pos hv]
      exact ⟨by simp [emptyDR], hst⟩
    · rw [if_neg hv]
      by_cases hpf : passesFilters (dirPath ++ [nm]) q = true
      · rw [if_pos hpf]
        unfold processFile
        by_cases h1 : st.total_size + sz > MAX_TOTAL_SIZE_BYTES
        · rw [if_pos h1]
          exact ⟨by simp [emptyDR], hst⟩
        · rw [if_neg h1]
          rw [if_pos (by
            show st.total_files + 1 > MAX_FILES
            omega)]
          exact ⟨by simp [emptyDR], by
            show st.total_files + 1 ≥ MAX_FILES
            omega⟩
      · rw [if_neg hpf]
        exact ⟨by simp [emptyDR], hst⟩
  · intro nm fs ih parentDepth dirPath q st hst
    unfold processEntry
    simp only [FSTree.name]
    by_cases hv : st.visited.contains (dirPath ++ [nm]) = true
    · rw [if_pos hv]
      exact ⟨by simp [emptyDR], hst⟩
    · rw [if_neg hv]
      by_cases hpf : passesFilters (dirPath ++ [nm]) q = true
      · rw [if_pos hpf]
        rw [if_pos (limitExceeded_true_of_files _ _ (by exact hst))]
        refine ⟨?_, hst⟩
        simp [emptyDR, cntFN, cntFL, toNodeList]
      · rw [if_neg hpf]
        exact ⟨by simp [emptyDR], hst⟩
  · intro parentDepth dirPath q st hst
    exact ⟨by simp [processForest, emptyDR], hst⟩
  · intro e fs ihe ihf parentDepth dirPath q st hst
    obtain ⟨he1, he2⟩ := ihe parentDepth dirPath q st hst
    obtain ⟨hf1, hf2⟩ := ihf parentDepth dirPath q (processEntry parentDepth dirPath e q st).2 he2
    simp only [processForest]
    constructor
    · simp only [List.map_append, List.sum_append, he1, hf1]
    · exact hf2

/-- C3: a flat directory of exactly `MAX_FILES + 5` equally-sized files, none
filtered and small enough that the total-size pre-check never fires, ingests
to a root whose `file_count` is exactly `MAX_FILES`; and in general, from any
traversal state whose running file counter has reached `MAX_FILES`, the rest
of the traversal appends no FILE node anywhere. -/
theorem claim_C3 (names : List Str) (s : Nat) (fd : RawFileData) (nm0 : Str) (q : Query)
    (hlen : names.length = MAX_FILES + 5)
    (hnodup : names.Nodup)
    (hbud : (MAX_FILES + 5) * s ≤ MAX_TOTAL_SIZE_BYTES)
    (hpass : ∀ nm ∈ names,
      passesFilters ((q.local_path ++ subSplit q.subpath) ++ [nm]) q = true) :
    (rootNodeOf (.dir nm0 (filesForest names s fd)) q).file_count = MAX_FILES ∧
    (∀ fs parentDepth dirPath q2 st, st.total_files ≥ MAX_FILES →
      ((processForest parentDepth dirPath fs q2 st).1.children.map cntFN).sum = 0) := by
  constructor
  · have hbud0 : (0 + names.length) * s ≤ MAX_TOTAL_SIZE_BYTES := by
      rw [Nat.zero_add, hlen]
      exact hbud
    obtain ⟨h1, _, _⟩ := flatLoop names s fd 0 (q.local_path ++ subSplit q.subpath) q 0 []
      hbud0 hnodup (fun nm _ => rfl) hpass
    have hz : (⟨[], 0, 0 * s⟩ : Stats) = ⟨[], 0, 0⟩ := by simp
    rw [hz] at h1
    dsimp only [rootNodeOf, Node.file_count]
    unfold processNode
    rw [if_neg (by decide : ¬limitExceeded (⟨[], 0, 0⟩ : Stats) 0 = true)]
    dsimp only
    rw [h1, hlen]
    omega
  · intro fs parentDepth dirPath q2 st hst
    exact (noFilesAfterMax.2 fs parentDepth dirPath q2 st hst).1

/-- A family of pairwise-distinct file names (`f`, `fa`, `faa`, ...). -/
def wName (i : Nat) : Str := 'f' :: List.replicate i 'a'

def wNames : List Str := (List.range (MAX_FILES + 5)).map wName

theorem wName_inj : Function.Injective wName := by
  intro i j h
  have h2 := congrArg List.length h
  simpa [wName] using h2

theorem wNames_nodup : wNames.Nodup := (List.nodup_range (MAX_FILES + 5)).map wName_inj

theorem wNames_length : wNames.length = MAX_FILES + 5 := by
  simp [wNames]

theorem pathRelative_append (base rest : List Str) :
    pathRelative base (base ++ rest) = rest := by
  induction base with
  | nil =>
    cases rest <;> simp [pathRelative, dropCommonPfx]
  | cons b bs ih =>
    simpa [pathRelative, dropCommonPfx] using ih

theorem passes_wName (i : Nat) :
    passesFilters ((qW.local_path ++ subSplit qW.subpath) ++ [wName i]) qW = true := by
  have hrel : pathRelative (Query.local_path qW) ((qW.local_path ++ subSplit qW.subpath) ++ [wName i]) =
      subSplit qW.subpath ++ [wName i] := by
    rw [List.append_assoc]
    exact pathRelative_append _ _
  simp only [passesFilters, shouldExclude, relString, hrel]
  have hsub : subSplit (Query.subpath qW) = [] := rfl
  rw [hsub]
  simp only [List.nil_append, List.intercalate]
  have hj : (List.intersperse sep [wName i]).flatten = wName i := by
    simp
  rw [hj]
  have hnp : (str "..").isPrefixOf (wName i) = false := by
    simp [str, wName, List.isPrefixOf]
  rw [hnp]
  rfl

theorem claim_C3_witness :
    (rootNodeOf (.dir (str "repo") (filesForest wNames 1 defaultData)) qW).file_count =
      MAX_FILES ∧
    ((processForest 0 [str "repo"] (.cons (.file (str "x") 1 defaultData) .nil) qW
        ⟨[], MAX_FILES, 0⟩).1.children.map cntFN).sum = 0 := by
  have h := claim_C3 wNames 1 defaultData (str "repo") qW wNames_length wNames_nodup
    (by decide)
    (fun nm hm => by
      obtain ⟨i, _, rfl⟩ := List.mem_map.mp hm
      exact passes_wName i)
  exact ⟨h.1, h.2 (.cons (.file (str "x") 1 defaultData) .nil) 0 [str "repo"] qW
    ⟨[], MAX_FILES, 0⟩ (le_refl _)⟩

/-! ## Pattern validation (claim C6) -/

/-- C6 counterexample: the claim's acceptance set (alphanumeric or
`- _ . / + * @`, which is also what `isValidPattern` in `query_parser.ts`
implements) accepts the pattern `@`, but the validation that actually raises
`InvalidPattern` at query-construction time — `parsePatterns`, importing
`isValidPattern` from `query_parser_utils.ts` — rejects it. -/
theorem claim_C6_counterexample :
    isValidPatternQP (str "@") = true ∧
    isValidPattern (str "@") = false ∧
    (parsePatterns [str "@"]).isOk = false := by
  decide

/-- C6 (amended): query-construction pattern validation accepts a pattern iff
it is empty (skipped) or consists only of ASCII alphanumerics and
`- _ . / + *`; any other character — `@` included — raises the
`InvalidPattern` failure in `parsePatterns`, before any traversal begins. -/
theorem claim_C6 (pats : List Str) :
    (parsePatterns pats).isOk = true ↔
      ∀ p ∈ pats, p ≠ [] →
        ∀ c ∈ p, (c.isAlphanum || c ∈ ['-', '_', '.', '/', '+', '*']) = true := by
  induction pats with
  | nil => simp [parsePatterns, Except.isOk, Except.toBool]
  | cons p rest ih =>
    by_cases hp : p = []
    · subst hp
      simp only [parsePatterns, List.isEmpty_nil, if_true]
      rw [ih]
      constructor
      · intro h p2 hm
        rcases List.mem_cons.mp hm with h2 | h2
        · subst h2
          intro hne
          exact absurd rfl hne
        · exact h p2 h2
      · intro h p2 hm
        exact h p2 (List.mem_cons_of_mem _ hm)
    · have hne : p.isEmpty = false := by
        cases p with
        | nil => exact absurd rfl hp
        | cons c cs => rfl
      by_cases hv : isValidPattern p = true
      · have hv2 : (!isValidPattern p) = false := by rw [hv]; rfl
        simp only [parsePatterns, hne, Bool.false_eq_true, if_false, hv2]
        have hchars : ∀ c ∈ p, (c.isAlphanum || c ∈ ['-', '_', '.', '/', '+', '*']) = true := by
          have := hv
          simp only [isValidPattern, Bool.and_eq_true, List.all_eq_true] at this
          exact this.2
        cases hrest : parsePatterns rest with
        | error e =>
          simp only [Except.isOk, Except.toBool]
          constructor
          · intro h
            exact absurd h (by simp)
          · intro h
            have : (parsePatterns rest).isOk = true := by
              rw [ih]
              intro p2 hm
              exact h p2 (List.mem_cons_of_mem _ hm)
            rw [hrest] at this
            exact absurd this (by simp [Except.isOk, Except.toBool])
        | ok r =>
          simp only [Except.isOk, Except.toBool]
          constructor
          · intro _ p2 hm
            rcases List.mem_cons.mp hm with h2 | h2
            · subst h2
              intro _
              exact hchars
            · have : (parsePatterns rest).isOk = true := by
                rw [hrest]
                rfl
              rw [ih] at this
              exact this p2 h2
          · intro _
            trivial
      · have hv2 : (!isValidPattern p) = true := by
          cases hb : isValidPattern p
          · rfl
          · exact absurd hb hv
        simp only [parsePatterns, hne, Bool.false_eq_true, if_false, hv2, if_true]
        simp only [Except.isOk, Except.toBool]
        constructor
        · intro h
          exact absurd h (by simp)
        · intro h
          exfalso
          apply hv
          simp only [isValidPattern, Bool.and_eq_true, List.all_eq_true]
          refine ⟨by simp [hne], ?_⟩
          exact h p (List.mem_cons_self _ _) hp

/-! ## Exclusion matching (claim C7) -/

/-- Modelled from the spec: `isExcluded(path, root, excludeSet)` as §4.1
words it — compute the relative path; excluded when it escapes the root;
otherwise excluded when any pattern glob-matches the relative path, a
directory's relative path being additionally tested with a trailing
separator appended.  (The trailing-separator clause is what `shouldExclude`
in the source does not do.) -/
def shouldExcludeSpec (filePath basePath : List Str) (pats : List Str) (isDir : Bool) : Bool :=
  let r := relString basePath filePath
  if (str "..").isPrefixOf r then true
  else pats.any (fun pat => matchPattern r pat || (isDir && matchPattern (r ++ str "/") pat))

/-- C7 counterexample: for the directory `src` under root `r` and the exclude
set containing the single pattern `src/`, the spec's description (with the
trailing-separator retest for directories) excludes the path, but the
source's `shouldExclude` — which receives no directory information and never
appends a separator — does not. -/
theorem claim_C7_counterexample :
    shouldExclude [str "r", str "src"] [str "r"] [str "src/"] = false ∧
    shouldExcludeSpec [str "r", str "src"] [str "r"] [str "src/"] true = true := by
  decide

/-- C7 (amended): `shouldExclude` computes the path relative to the root and
treats it as excluded when the relative string starts with `..` (escape; the
output of `path.relative` on absolute inputs is never itself absolute);
otherwise it returns true iff some non-empty pattern glob-matches the
relative path as-is.  No trailing-separator variant is ever tested — the
function has no directory information. -/
theorem claim_C7 (filePath basePath : List Str) (pats : List Str) :
    shouldExclude filePath basePath pats = true ↔
      ((str "..").isPrefixOf (relString basePath filePath) = true ∨
        ∃ pat ∈ pats, pat ≠ [] ∧ matchPattern (relString basePath filePath) pat = true) := by
  unfold shouldExclude
  by_cases hpre : (str "..").isPrefixOf (relString basePath filePath) = true
  · rw [if_pos hpre]
    simp [hpre]
  · rw [if_neg hpre]
    simp only [List.any_eq_true, Bool.and_eq_true, Bool.not_eq_true']
    constructor
    · rintro ⟨pat, hm, hemp, hmatch⟩
      refine Or.inr ⟨pat, hm, ?_, hmatch⟩
      intro hnil
      subst hnil
      exact absurd hemp (by simp)
    · rintro (h | ⟨pat, hm, hnil, hmatch⟩)
      · exact absurd h hpre
      · refine ⟨pat, hm, ?_, hmatch⟩
        cases pat with
        | nil => exact absurd rfl hnil
        | cons c cs => rfl

/-! ## Include/exclude retention and the include override (claim C5) -/

/-- A query over root `r` with the given pattern sets. -/
def qOf (ign : List Str) (inc : Option (List Str)) : Query :=
  ⟨none, none, [str "r"], str "r", str "/", str "tree", none, none, MAX_FILE_SIZE, ign, inc⟩

/-- Modelled from the spec: "a path survives iff not excluded AND (no include
set configured OR explicitly included)", with "the include set is
absent/empty" read as the claim words it — an empty include set behaves like
no include set. -/
def specRetained (targetPath : List Str) (q : Query) : Bool :=
  !shouldExclude targetPath q.local_path q.ignore_patterns &&
  (match q.include_patterns with
   | none => true
   | some inc => inc.isEmpty || shouldInclude targetPath q.local_path inc)

/-- C5 counterexample: with no exclude patterns and an empty-but-present
include set, the claim's rule retains the path `r/a.ts`, but the code's
truthiness test on the include `Set` object makes the traversal skip every
entry: the one-file directory ingests to an empty child list. -/
theorem claim_C5_counterexample :
    specRetained [str "r", str "a.ts"] (qOf [] (some [])) = true ∧
    passesFilters [str "r", str "a.ts"] (qOf [] (some [])) = false ∧
    (processNode 0 [str "r"] (.cons (.file (str "a.ts") 5 defaultData) .nil)
      (qOf [] (some [])) ⟨[], 0, 0⟩).1.children = [] := by
  refine ⟨by decide, by decide, ?_⟩
  rfl

/-- C5 (amended): during traversal a path is retained iff it is not matched
by the effective exclude set AND (the include set is absent — `undefined`,
not merely empty — or the path matches some include pattern); an
empty-but-present include set retains nothing.  At query-build time a
caller-supplied include pattern literally equal to an excluded pattern is
deleted from the effective exclude set, so with excludes `{*.ts}` and
includes `{*.ts}` a `.ts` file is retained provided no other surviving
exclude pattern matches it. -/
theorem claim_C5 :
    (∀ (p : List Str) (q : Query),
      passesFilters p q = true ↔
        (shouldExclude p q.local_path q.ignore_patterns = false ∧
          (q.include_patterns = none ∨
            ∃ inc, q.include_patterns = some inc ∧
              shouldInclude p q.local_path inc = true))) ∧
    (∀ defaults : List Str,
      (∀ d ∈ defaults, d ≠ str "*.ts" → matchPattern (str "a.ts") d = false) →
      mergeQueryPatterns defaults (some [str "*.ts"]) (some [str "*.ts"]) =
        .ok (defaults.filter (fun d => d ∉ [str "*.ts"]), some [str "*.ts"]) ∧
      passesFilters [str "r", str "a.ts"]
        (qOf (defaults.filter (fun d => d ∉ [str "*.ts"])) (some [str "*.ts"])) = true) := by
  constructor
  · intro p q
    unfold passesFilters
    rw [Bool.and_eq_true, Bool.not_eq_true']
    cases hinc : q.include_patterns with
    | none =>
      dsimp only
      constructor
      · rintro ⟨h1, _⟩
        exact ⟨h1, Or.inl rfl⟩
      · rintro ⟨h1, _⟩
        exact ⟨h1, rfl⟩
    | some inc =>
      dsimp only
      constructor
      · rintro ⟨h1, h2⟩
        exact ⟨h1, Or.inr ⟨inc, rfl, h2⟩⟩
      · rintro ⟨h1, hn | ⟨inc2, he, h2⟩⟩
        · exact absurd hn (by simp)
        · cases Option.some.inj he
          exact ⟨h1, h2⟩
  · intro defaults hmatch
    have hparse : parsePatterns [str "*.ts"] = .ok [str "*.ts"] := rfl
    have hmerge : mergeQueryPatterns defaults (some [str "*.ts"]) (some [str "*.ts"]) =
        .ok (defaults.filter (fun d => d ∉ [str "*.ts"]), some [str "*.ts"]) := by
      unfold mergeQueryPatterns
      dsimp only
      rw [hparse]
      dsimp only
      have hrest : ([str "*.ts"].filter (fun p => p ∉ defaults)).filter
          (fun p => p ∉ [str "*.ts"]) = [] := by
        by_cases hd : str "*.ts" ∈ defaults <;> simp [hd]
      rw [List.filter_append, hrest, List.append_nil]
    refine ⟨hmerge, ?_⟩
    have hrel : relString [str "r"] [str "r", str "a.ts"] = str "a.ts" := rfl
    unfold passesFilters shouldExclude
    simp only [qOf, hrel]
    rw [if_neg (by decide : ¬(str "..").isPrefixOf (str "a.ts") = true)]
    have hany : (defaults.filter (fun d => d ∉ [str "*.ts"])).any
        (fun pat => !pat.isEmpty && matchPattern (str "a.ts") pat) = false := by
      rw [List.any_eq_false]
      intro pat hm
      have hm2 := List.mem_filter.mp hm
      have hne : pat ≠ str "*.ts" := by
        have := hm2.2
        simp at this
        exact this
      rw [hmatch pat hm2.1 hne]
      simp
    rw [hany]
    have hincl : shouldInclude [str "r", str "a.ts"] [str "r"] [str "*.ts"] = true := by
      decide
    rw [hincl]
    rfl

theorem claim_C5_witness :
    mergeQueryPatterns [] (some [str "*.ts"]) (some [str "*.ts"]) =
      .ok ([], some [str "*.ts"]) ∧
    passesFilters [str "r", str "a.ts"] (qOf [] (some [str "*.ts"])) = true := by
  have h := claim_C5.2 [] (by intro d hd hne; simp at hd)
  exact ⟨h.1, h.2⟩

/-! ## Notebook failure on the single-file path (claim C9) -/

def nbFd : RawFileData := ⟨true, none, some []⟩

def nbTree : FSTree := .file (str "nb.ipynb") 10 nbFd

/-- C9 counterexample: ingesting a sole `.ipynb` resource whose contents are
not valid JSON does NOT abort — it returns an `ok` digest whose content block
carries the substituted string `Error processing notebook:
InvalidNotebookError: Invalid JSON in notebook: ...`, because the `content`
getter catches the notebook failure. -/
theorem claim_C9_counterexample :
    ((ingestDigest nbTree qW).toOption.map Digest.content) =
      some (str "### \n```ipynb\nError processing notebook: InvalidNotebookError: Invalid JSON in notebook: repo\n```\n") := by
  decide

/-- C9 (amended): when the sole requested resource is a text `.ipynb` file
whose contents fail to parse as JSON, the ingestion returns a digest (no
abort) in which the file's content is the caught-and-substituted string
`Error processing notebook: InvalidNotebookError: Invalid JSON in notebook:
<path>`; the only fatal check on this path is empty content, which the
non-empty error string never triggers. -/
theorem claim_C9 (nm : Str) (sz : Nat) (q : Query) (fd : RawFileData)
    (ht : fd.isText = true) (hj : fd.notebookJson = none)
    (hext : extname nm = str ".ipynb") :
    ingestDigest (.file nm sz fd) q =
      .ok (formatNode (rootNodeOf (.file nm sz fd) q) q) ∧
    nodeContent (rootNodeOf (.file nm sz fd) q) =
      str "Error processing notebook: InvalidNotebookError: Invalid JSON in notebook: " ++
        List.intercalate sep (q.local_path ++ subSplit q.subpath) := by
  have hc : nodeContent (rootNodeOf (.file nm sz fd) q) =
      str "Error processing notebook: InvalidNotebookError: Invalid JSON in notebook: " ++
        List.intercalate sep (q.local_path ++ subSplit q.subpath) := by
    dsimp only [rootNodeOf, nodeContent, Node.ntype, Node.name, Node.pathAbs, Node.data]
    unfold fileContent
    rw [ht]
    rw [if_neg (by simp : ¬(!true) = true)]
    rw [if_pos hext]
    rw [hj]
    unfold processNotebook
    dsimp only [renderNbError]
    rw [← List.append_assoc]
    rfl
  refine ⟨?_, hc⟩
  simp only [ingestDigest]
  rw [hc]
  have hemp : (str "Error processing notebook: InvalidNotebookError: Invalid JSON in notebook: " ++
      List.intercalate sep (q.local_path ++ subSplit q.subpath)).isEmpty = false := rfl
  rw [if_neg (by rw [hemp]; exact Bool.false_ne_true)]

theorem claim_C9_witness :
    ingestDigest nbTree qW = .ok (formatNode (rootNodeOf nbTree qW) qW) ∧
    nodeContent (rootNodeOf nbTree qW) =
      str "Error processing notebook: InvalidNotebookError: Invalid JSON in notebook: " ++
        List.intercalate sep (qW.local_path ++ subSplit qW.subpath) :=
  claim_C9 (str "nb.ipynb") 10 qW nbFd rfl rfl (by decide)

end Gitingest
